import Mathlib

/-!
Shallow embedding of the CTC decoders in
neural_sp/models/seq2seq/decoders/ctc.py
(class CTC: methods greedy and beam_search; class CTCPrefixScore:
methods initial_state and the call operator).

Log-domain probabilities are embedded as integers: the decoders apply
only addition, multiplication and order comparisons to them (never
division), so the exact integers form a faithful executable carrier for
the float log-probability values.  The transcendental
operation np.logaddexp is embedded as an explicit function parameter
(field lse of the configuration structures): every theorem below holds
for an arbitrary instantiation, hence in particular for the real
log-add-exp; concrete evaluations instantiate it with max, which is
executable on rationals.
-/

namespace NeuralSpCTC

/-- LOG_0 of ctc.py: float(np.finfo(np.float32).min), the exact value
of the most negative finite float32, namely -(2 - 2^-23) * 2^127. -/
def LOG_0 : ℤ := -(2 ^ 128 - 2 ^ 104)

/-- LOG_1 of ctc.py. -/
def LOG_1 : ℤ := 0

/-- Reading a row of the log-probability table at a label index,
numpy-style indexing (indices used by the decoders are in range; the
default is irrelevant there). -/
def rowGet (row : List ℤ) (i : Nat) : ℤ := row.getD i 0

/-! ## Greedy decoding (CTC.greedy)

The method computes, per batch element, the per-frame argmax indices,
collapses consecutive repeats (itertools.groupby, keeping the head of
each group) and removes the blank label.  We embed the decoding of a
single utterance: the table is a list of rows, one per frame. -/

/-- Loop of the argmax computation: scanning the remaining elements at
index j, with current best index bi holding value bv.  torch.argmax
returns the index of the first maximal value, i.e. the running best is
replaced only on a strict increase. -/
def argmaxGo : List ℤ → Nat → Nat → ℤ → Nat
  | [], _, bi, _ => bi
  | v :: rest, j, bi, bv =>
    if bv < v then argmaxGo rest (j + 1) j v else argmaxGo rest (j + 1) bi bv

/-- Index of the first maximal value of a row (torch argmax of one
frame); 0 on the empty row. -/
def argmaxIdx (row : List ℤ) : Nat :=
  match row with
  | [] => 0
  | v :: rest => argmaxGo rest 1 0 v

/-- Tail of the group-head computation: a is the head of the current
group; elements equal to it are inside the group and skipped, a
different element opens the next group. -/
def groupHeadsGo (a : Nat) : List Nat → List Nat
  | [] => []
  | b :: l => if b == a then groupHeadsGo a l else b :: groupHeadsGo b l

/-- Heads of the groups of consecutive equal elements, mirroring
itertools.groupby followed by taking x[0] of every group. -/
def groupHeads : List Nat → List Nat
  | [] => []
  | a :: l => a :: groupHeadsGo a l

/-- Collapse of consecutive repeated labels, written as the direct
pairwise recursion of the specification (first occurrence kept). -/
def collapseRepeats : List Nat → List Nat
  | [] => []
  | [a] => [a]
  | a :: b :: l =>
    if a = b then collapseRepeats (b :: l) else a :: collapseRepeats (b :: l)

/-- CTC.greedy on one utterance: per-frame argmax, collapse repeated
labels, remove all blank labels. -/
def greedy (table : List (List ℤ)) (blank : Nat) : List Nat :=
  ((groupHeads (table.map argmaxIdx)).filter (fun x => x ≠ blank))

/-- Decidable check that a row has a unique maximal element. -/
def uniqueMaxRow (row : List ℤ) : Bool :=
  row.count ((row.max?).getD 0) == 1

/-! ## Beam search decoding (CTC.beam_search)

Beam elements are the dictionaries built in the method body.  The source
dictionaries of the initial beam carry no score key; the field is set to
LOG_1 here and is overwritten before any use.  The language model is the
external collaborator: it enters the computation only through the two
opaque values read at the call sites (the per-token shallow-fusion score
and the full-sequence rescoring score), and through the None test. -/

/-- One beam element (the per-hypothesis dictionary of beam_search). -/
structure BHyp where
  hyp : List Nat
  score : ℤ
  p_b : ℤ
  p_nb : ℤ
  clm_score : ℤ
  clm_hxs : Option (List ℤ)
  clm_cxs : Option (List ℤ)
  deriving DecidableEq

/-- Opaque external scorer interface: stepScore c st is the value
log_softmax(lm.generate(lm.decode(lm.encode(c), st)))[0, 0, c] read in
the shallow-fusion branch (the updated state returned by lm.decode is
discarded by the caller); seqScore ys is the summed log_softmax over the
whole padded sequence read in the rescoring branch. -/
structure ExtScorer where
  stepScore : Nat → Option (List ℤ) × Option (List ℤ) → ℤ
  seqScore : List Nat → ℤ

/-- Configuration of one utterance decode: the embedded np.logaddexp and
the designated blank and eos label indices of the CTC instance. -/
structure BSCfg where
  lse : ℤ → ℤ → ℤ
  blank : Nat
  eos : Nat

/-- Order relation of the beam sort: descending ranking score.  CPython
sorted with reverse=True is a stable sort, and a stable sort by a total
preorder is computed by insertion sort with this relation. -/
def scoreGe (a b : BHyp) : Prop := b.score ≤ a.score

instance : DecidableRel scoreGe := fun a b =>
  inferInstanceAs (Decidable (b.score ≤ a.score))

instance : IsTotal BHyp scoreGe := ⟨fun a b => le_total b.score a.score⟩

instance : IsTrans BHyp scoreGe := ⟨fun _ _ _ h1 h2 => le_trans h2 h1⟩

/-- Order relation of the candidate-label sort (torch.topk with
sorted=True): descending table value, stably, so equal values keep the
index order. -/
def valGe (a b : Nat × ℤ) : Prop := b.2 ≤ a.2

instance : DecidableRel valGe := fun a b =>
  inferInstanceAs (Decidable (b.2 ≤ a.2))

instance : IsTotal (Nat × ℤ) valGe := ⟨fun a b => le_total b.2 a.2⟩

instance : IsTrans (Nat × ℤ) valGe := ⟨fun _ _ _ h1 h2 => le_trans h2 h1⟩

/-- Indices of the k largest values of a row, in descending value order,
equal values ordered by increasing index (torch.topk of one frame with
k = min(beam_width, vocab), which take already realises). -/
def topkIdx (row : List ℤ) (k : Nat) : List Nat :=
  ((List.insertionSort valGe row.enum).take k).map Prod.fst

/-- The initial beam: the single hypothesis holding only eos, with
probability 1 of ending in blank and 0 of ending in non-blank. -/
def initBeam (C : BSCfg) : List BHyp :=
  [{ hyp := [C.eos], score := LOG_1, p_b := LOG_1, p_nb := LOG_0,
     clm_score := LOG_1, clm_hxs := none, clm_cxs := none }]

/-- Case 1 of the step body: the hypothesis is not extended. -/
def notExtended (C : BSCfg) (lm_weight : ℤ) (row : List ℤ) (e : BHyp) : BHyp :=
  let new_p_b := C.lse (e.p_b + rowGet row C.blank) (e.p_nb + rowGet row C.blank)
  let new_p_nb := if 1 < e.hyp.length
    then e.p_nb + rowGet row (e.hyp.getLastD 0) else LOG_0
  { hyp := e.hyp,
    score := C.lse new_p_b new_p_nb + e.clm_score * lm_weight,
    p_b := new_p_b, p_nb := new_p_nb,
    clm_score := e.clm_score, clm_hxs := e.clm_hxs, clm_cxs := e.clm_cxs }

/-- Case 2 of the step body: the hypothesis is extended by the non-blank
candidate label c.  new_p_b is the LOG_0 set once before the candidate
loop and never reassigned inside it. -/
def extended (C : BSCfg) (lm : Option ExtScorer) (lm_weight : ℤ)
    (lm_usage : String) (row : List ℤ) (e : BHyp) (c : Nat) : BHyp :=
  let p_t := rowGet row c
  let last_token : Option Nat :=
    if 1 < e.hyp.length then some (e.hyp.getLastD 0) else none
  let new_p_nb := if some c = last_token
    then e.p_b + p_t
    else C.lse (e.p_b + p_t) (e.p_nb + p_t)
  let clm2 := match lm with
    | some l =>
      if 0 < lm_weight ∧ lm_usage = "shallow_fusion"
      then l.stepScore c (e.clm_hxs, e.clm_cxs) else e.clm_score
    | none => e.clm_score
  { hyp := e.hyp ++ [c],
    score := C.lse LOG_0 new_p_nb + clm2 * lm_weight,
    p_b := LOG_0, p_nb := new_p_nb,
    clm_score := clm2, clm_hxs := e.clm_hxs, clm_cxs := e.clm_cxs }

/-- The new_beam list built at one time step: for each hypothesis of the
beam, in order, the not-extended element followed by one extension per
non-blank candidate of the pruned label set, in candidate order. -/
def candList (C : BSCfg) (lm : Option ExtScorer) (lm_weight : ℤ)
    (lm_usage : String) (bw : Nat) (row : List ℤ) (beam : List BHyp) :
    List BHyp :=
  beam.flatMap (fun e =>
    notExtended C lm_weight row e ::
      ((topkIdx row bw).filter (fun c => c ≠ C.blank)).map
        (extended C lm lm_weight lm_usage row e))

/-- One time step: build new_beam, stable-sort by descending score, keep
the first beam_width elements. -/
def stepBeam (C : BSCfg) (lm : Option ExtScorer) (lm_weight : ℤ)
    (lm_usage : String) (bw : Nat) (row : List ℤ) (beam : List BHyp) :
    List BHyp :=
  (List.insertionSort scoreGe
    (candList C lm lm_weight lm_usage bw row beam)).take bw

/-- The beam after consuming the given frames, starting from the initial
beam. -/
def beamAt (C : BSCfg) (lm : Option ExtScorer) (lm_weight : ℤ)
    (lm_usage : String) (bw : Nat) (rows : List (List ℤ)) : List BHyp :=
  rows.foldl (fun beam row => stepBeam C lm lm_weight lm_usage bw row beam)
    (initBeam C)

/-- The rescoring pass over the finished beam: active only when
lm_weight is positive, a language model is given and lm_usage is
rescoring; each surviving hypothesis is rescored from its final blank
and non-blank masses plus the weighted full-sequence external score,
then the beam is re-sorted without truncation. -/
def rescored (C : BSCfg) (lm : Option ExtScorer) (lm_weight : ℤ)
    (lm_usage : String) (beam : List BHyp) : List BHyp :=
  match lm with
  | some l =>
    if 0 < lm_weight ∧ lm_usage = "rescoring" then
      List.insertionSort scoreGe
        (beam.map (fun e =>
          { e with score := C.lse e.p_b e.p_nb
              + l.seqScore (C.eos :: e.hyp) * lm_weight }))
    else beam
  | none => beam

/-- CTC.beam_search on one utterance: the time loop followed by the
optional rescoring pass.  length_penalty is accepted by the method but
never read in its body. -/
def beamSearch (C : BSCfg) (lm : Option ExtScorer)
    (lm_weight length_penalty : ℤ) (lm_usage : String) (bw : Nat)
    (rows : List (List ℤ)) : List BHyp :=
  rescored C lm lm_weight lm_usage (beamAt C lm lm_weight lm_usage bw rows)

/-- The returned best hypothesis: label sequence of the top beam element
with the leading eos stripped. -/
def bestHyp (C : BSCfg) (lm : Option ExtScorer)
    (lm_weight length_penalty : ℤ) (lm_usage : String) (bw : Nat)
    (rows : List (List ℤ)) : List Nat :=
  match (beamSearch C lm lm_weight length_penalty lm_usage bw rows).head? with
  | some e => e.hyp.tail
  | none => []

/-! ## CTC prefix scoring (class CTCPrefixScore)

The instance state is the log-probability table (a function of frame
and label here), its length xlen, and the blank and eos indices; the
constant self.logzero stands for probability zero.  The call operator
receives the prefix hyp (with the leading sos), the candidate array cs
and the previous CTC state r_prev, a per-frame pair of non-blank and
blank forward log-probabilities. -/

/-- The value self.logzero of CTCPrefixScore. -/
def logzero : ℤ := -10000000000

/-- Configuration of one CTCPrefixScore instance. -/
structure PCfg where
  lse : ℤ → ℤ → ℤ
  log_probs : Nat → Nat → ℤ
  xlen : Nat
  blank : Nat
  eos : Nat

/-- Blank track of initial_state: r[0, 1] = log_probs[0, blank], then
r[i, 1] = r[i - 1, 1] + log_probs[i, blank], exactly the loop of the
method. -/
def initStateBlank (P : PCfg) : Nat → ℤ
  | 0 => P.log_probs 0 P.blank
  | t + 1 => initStateBlank P t + P.log_probs (t + 1) P.blank

/-- initial_state: the non-blank track keeps the logzero fill, the blank
track is the loop above; the pair is (r[t, 0], r[t, 1]), meaningful for
t < xlen. -/
def initialState (P : PCfg) (t : Nat) : ℤ × ℤ :=
  (logzero, initStateBlank P t)

/-- ylen of the call operator: the prefix length without the sos. -/
def ylenOf (hyp : List Nat) : Nat := hyp.length - 1

/-- xs of the call operator: the table column of candidate i. -/
def xsVal (P : PCfg) (cs : List Nat) (t i : Nat) : ℤ :=
  P.log_probs t (cs.getD i 0)

/-- r_sum of the call operator: log of the summed non-blank and blank
forward masses of the unextended prefix. -/
def rSum (P : PCfg) (r_prev : Nat → ℤ × ℤ) (t : Nat) : ℤ :=
  P.lse (r_prev t).1 (r_prev t).2

/-- log_phi of the call operator: the connecting term of candidate i at
frame t.  When the prefix is non-empty and its last label occurs among
the candidates, the repeated-label candidate connects through the blank
track only; every other case uses r_sum. -/
def logPhi (P : PCfg) (hyp : List Nat) (cs : List Nat)
    (r_prev : Nat → ℤ × ℤ) (t i : Nat) : ℤ :=
  if 0 < ylenOf hyp ∧ hyp.getLastD 0 ∈ cs then
    (if cs.getD i 0 ≠ hyp.getLastD 0 then rSum P r_prev t
     else (r_prev t).2)
  else rSum P r_prev t

/-- start of the call operator: max(ylen, 1). -/
def startIdx (hyp : List Nat) : Nat := max (ylenOf hyp) 1

/-- Row start - 1 of the new CTC state r, the only row initialised
before the time loop: for the empty prefix, row 0 is (xs[0], logzero);
otherwise row ylen - 1 is logzero on both tracks. -/
def baseRow (P : PCfg) (hyp : List Nat) (cs : List Nat) (i : Nat) :
    ℤ × ℤ :=
  if ylenOf hyp = 0 then (xsVal P cs 0 i, logzero) else (logzero, logzero)

/-- The time loop of the call operator, indexed by the offset k from
row start - 1: rFrom k i is row start - 1 + k of the new state of
candidate i, with r[t, 0] = lse(r[t-1, 0], log_phi[t-1]) + xs[t] and
r[t, 1] = lse(r[t-1, 0], r[t-1, 1]) + log_probs[t, blank]. -/
def rFrom (P : PCfg) (hyp : List Nat) (cs : List Nat)
    (r_prev : Nat → ℤ × ℤ) : Nat → Nat → ℤ × ℤ
  | 0, i => baseRow P hyp cs i
  | k + 1, i =>
    (P.lse (rFrom P hyp cs r_prev k i).1
        (logPhi P hyp cs r_prev (startIdx hyp - 1 + k) i)
      + xsVal P cs (startIdx hyp + k) i,
     P.lse (rFrom P hyp cs r_prev k i).1 (rFrom P hyp cs r_prev k i).2
      + P.log_probs (startIdx hyp + k) P.blank)

/-- Row t of the new CTC state of candidate i, for t ≥ start - 1. -/
def rVal (P : PCfg) (hyp : List Nat) (cs : List Nat)
    (r_prev : Nat → ℤ × ℤ) (t i : Nat) : ℤ × ℤ :=
  rFrom P hyp cs r_prev (t - (startIdx hyp - 1)) i

/-- The log_psi accumulation of the time loop, indexed by the offset k:
log_psi starts as r[start - 1, 0] and absorbs
log_phi[t - 1] + xs[t] at every frame t of the loop. -/
def psiFrom (P : PCfg) (hyp : List Nat) (cs : List Nat)
    (r_prev : Nat → ℤ × ℤ) : Nat → Nat → ℤ
  | 0, i => (baseRow P hyp cs i).1
  | k + 1, i =>
    P.lse (psiFrom P hyp cs r_prev k i)
      (logPhi P hyp cs r_prev (startIdx hyp - 1 + k) i
        + xsVal P cs (startIdx hyp + k) i)

/-- The returned prefix log-probability of candidate i: the final
log_psi, except that every eos position is overwritten with
r_sum[-1] = r_sum[xlen - 1] of the unextended prefix. -/
def ctcScore (P : PCfg) (hyp : List Nat) (cs : List Nat)
    (r_prev : Nat → ℤ × ℤ) (i : Nat) : ℤ :=
  if cs.getD i 0 = P.eos then rSum P r_prev (P.xlen - 1)
  else psiFrom P hyp cs r_prev (P.xlen - startIdx hyp) i

/-! ## Concrete evaluation fixtures

An executable instantiation of the embedded np.logaddexp and small
concrete tables with blank = 0, an ordinary label 1 and eos = 2. -/

/-- Executable instantiation of the log-add-exp parameter. -/
def lseMax : ℤ → ℤ → ℤ := fun a b => max a b

/-- Beam-search configuration of the concrete runs. -/
def cfgT : BSCfg := { lse := lseMax, blank := 0, eos := 2 }

/-- One frame in which blank and label 1 are tied and eos is small. -/
def rowsT1 : List (List ℤ) := [[-1, -1, -9]]

/-- Two identical frames with blank and label 1 tied. -/
def rowsT2 : List (List ℤ) := [[-1, -1, -9], [-1, -1, -9]]

/-- One frame dominated by label 1. -/
def rowsT3 : List (List ℤ) := [[-9, -1, -9]]

/-- A three-frame two-label table in which every frame has a unique
dominant label: label 1, then blank, then label 1 again. -/
def tableG : List (List ℤ) := [[-5, -1], [-1, -5], [-5, -1]]

/-- Prefix-scoring configuration of the concrete runs: three frames,
an injective integer table. -/
def pcfgW : PCfg :=
  { lse := lseMax, log_probs := fun t i => -(3 * (t : ℤ) + 2 * (i : ℤ) + 1),
    xlen := 3, blank := 0, eos := 2 }

/-- A concrete previous CTC state for the prefix-scoring runs. -/
def rprevW : Nat → ℤ × ℤ := fun t => (-(t : ℤ) - 1, -(2 * (t : ℤ)) - 2)

/-- Decidable well-formedness of one beam element for the blank-free
invariant: the label sequence starts with the eos marker and carries no
blank after it. -/
def goodHyp (C : BSCfg) (e : BHyp) : Bool :=
  e.hyp.head? == some C.eos && !(e.hyp.tail.contains C.blank)

/-! ## Lemmas about greedy decoding -/

theorem groupHeadsGo_eq_collapseRepeats (l : List Nat) :
    ∀ a, a :: groupHeadsGo a l = collapseRepeats (a :: l) := by
  induction l with
  | nil => intro a; rfl
  | cons b l ih =>
    intro a
    by_cases hab : b = a
    · subst hab
      simp only [groupHeadsGo, beq_self_eq_true, if_true, collapseRepeats,
        if_pos rfl]
      exact ih b
    · have hba : ¬(a = b) := fun h => hab h.symm
      simp only [groupHeadsGo, beq_eq_false_iff_ne.mpr hab,
        Bool.false_eq_true, if_false, collapseRepeats, if_neg hba]
      exact congrArg (a :: ·) (ih b)

theorem groupHeads_eq_collapseRepeats (l : List Nat) :
    groupHeads l = collapseRepeats l := by
  cases l with
  | nil => rfl
  | cons a l => exact groupHeadsGo_eq_collapseRepeats l a

theorem chain_ne_groupHeadsGo (l : List Nat) :
    ∀ a, List.Chain' (· ≠ ·) (a :: groupHeadsGo a l) := by
  induction l with
  | nil => intro a; simp [groupHeadsGo]
  | cons b l ih =>
    intro a
    by_cases hab : b = a
    · subst hab; simpa [groupHeadsGo] using ih b
    · simp only [groupHeadsGo, beq_eq_false_iff_ne.mpr hab,
        Bool.false_eq_true, if_false]
      exact List.Chain'.cons (fun h => hab h.symm) (ih b)

theorem chain_ne_collapseRepeats (l : List Nat) :
    List.Chain' (· ≠ ·) (collapseRepeats l) := by
  cases l with
  | nil => simp [collapseRepeats]
  | cons a l =>
    rw [← groupHeadsGo_eq_collapseRepeats]
    exact chain_ne_groupHeadsGo l a

theorem argmaxGo_spec (rest : List ℤ) : ∀ (j bi : Nat) (bv : ℤ),
    (argmaxGo rest j bi bv = bi ∧ ∀ k, k < rest.length → rest.getD k 0 ≤ bv)
    ∨ (∃ k, k < rest.length ∧ argmaxGo rest j bi bv = j + k
        ∧ bv < rest.getD k 0
        ∧ (∀ m, m < rest.length → rest.getD m 0 ≤ rest.getD k 0)
        ∧ (∀ m, m < k → rest.getD m 0 < rest.getD k 0)) := by
  induction rest with
  | nil =>
    intro j bi bv
    exact Or.inl ⟨rfl, fun k hk => absurd hk (Nat.not_lt_zero k)⟩
  | cons v rest ih =>
    intro j bi bv
    by_cases h : bv < v
    · rcases ih (j + 1) j v with ⟨heq, hall⟩ | ⟨k, hk, heq, hlt, hmax, hfst⟩
      · refine Or.inr ⟨0, Nat.succ_pos _, ?_, ?_, ?_, ?_⟩
        · simpa [argmaxGo, h] using heq
        · simpa using h
        · intro m hm
          match m with
          | 0 => simp
          | m + 1 =>
            simpa using hall m (Nat.lt_of_succ_lt_succ hm)
        · intro m hm; exact absurd hm (Nat.not_lt_zero m)
      · refine Or.inr ⟨k + 1, Nat.succ_lt_succ hk, ?_, ?_, ?_, ?_⟩
        · simpa [argmaxGo, h, Nat.add_assoc, Nat.add_comm 1 k] using heq
        · simpa using lt_trans h hlt
        · intro m hm
          match m with
          | 0 => simpa using le_of_lt hlt
          | m + 1 =>
            simpa using hmax m (Nat.lt_of_succ_lt_succ hm)
        · intro m hm
          match m with
          | 0 => simpa using hlt
          | m + 1 =>
            simpa using hfst m (Nat.lt_of_succ_lt_succ hm)
    · rcases ih (j + 1) bi bv with ⟨heq, hall⟩ | ⟨k, hk, heq, hlt, hmax, hfst⟩
      · refine Or.inl ⟨by simpa [argmaxGo, h] using heq, ?_⟩
        intro m hm
        match m with
        | 0 => simpa using le_of_not_lt h
        | m + 1 => simpa using hall m (Nat.lt_of_succ_lt_succ hm)
      · refine Or.inr ⟨k + 1, Nat.succ_lt_succ hk, ?_, ?_, ?_, ?_⟩
        · simpa [argmaxGo, h, Nat.add_assoc, Nat.add_comm 1 k] using heq
        · simpa using hlt
        · intro m hm
          match m with
          | 0 => simpa using le_of_lt (lt_of_le_of_lt (le_of_not_lt h) hlt)
          | m + 1 => simpa using hmax m (Nat.lt_of_succ_lt_succ hm)
        · intro m hm
          match m with
          | 0 => simpa using lt_of_le_of_lt (le_of_not_lt h) hlt
          | m + 1 => simpa using hfst m (Nat.lt_of_succ_lt_succ hm)

theorem argmaxIdx_spec (row : List ℤ) (h : row ≠ []) :
    argmaxIdx row < row.length
    ∧ (∀ k, k < row.length → row.getD k 0 ≤ row.getD (argmaxIdx row) 0)
    ∧ (∀ k, k < argmaxIdx row → row.getD k 0 < row.getD (argmaxIdx row) 0) := by
  match row with
  | [] => exact absurd rfl h
  | v :: rest =>
    rcases argmaxGo_spec rest 1 0 v with ⟨heq, hall⟩ | ⟨k, hk, heq, hlt, hmax, hfst⟩
    · have hidx : argmaxIdx (v :: rest) = 0 := heq
      rw [hidx]
      refine ⟨Nat.succ_pos _, ?_, ?_⟩
      · intro m hm
        match m with
        | 0 => simp
        | m + 1 => simpa using hall m (Nat.lt_of_succ_lt_succ hm)
      · intro m hm; exact absurd hm (Nat.not_lt_zero m)
    · have hidx : argmaxIdx (v :: rest) = k + 1 := by
        simpa [argmaxIdx, Nat.add_comm 1 k] using heq
      rw [hidx]
      refine ⟨Nat.succ_lt_succ hk, ?_, ?_⟩
      · intro m hm
        match m with
        | 0 => simpa using le_of_lt hlt
        | m + 1 => simpa using hmax m (Nat.lt_of_succ_lt_succ hm)
      · intro m hm
        match m with
        | 0 => simpa using hlt
        | m + 1 => simpa using hfst m (Nat.lt_of_succ_lt_succ hm)

/-! ## Claim C7 -/

/-- C7: greedy decoding returns exactly the per-frame argmax sequence
(first maximal index, hence lowest label index on ties), collapsed over
consecutive repeats keeping the first occurrence, with every blank
removed; the decode is a pure function of the table, and the argmax of
any non-empty row attains the row maximum at the least such index. -/
theorem greedy_decode_spec (table : List (List ℤ)) (blank : Nat)
    (row : List ℤ) (k : Nat) (hrow : row ≠ []) (hk : k < row.length) :
    greedy table blank
      = (collapseRepeats (table.map argmaxIdx)).filter (fun x => x ≠ blank)
    ∧ argmaxIdx row < row.length
    ∧ rowGet row k ≤ rowGet row (argmaxIdx row)
    ∧ (k < argmaxIdx row → rowGet row k < rowGet row (argmaxIdx row)) := by
  obtain ⟨h1, h2, h3⟩ := argmaxIdx_spec row hrow
  exact ⟨by rw [greedy, groupHeads_eq_collapseRepeats], h1, h2 k hk,
    fun hlt => h3 k hlt⟩

/-- Witness of greedy_decode_spec at a concrete table and row. -/
theorem greedy_decode_spec_witness :
    (([-3, -7, -7] : List ℤ) ≠ [] ∧ 1 < ([-3, -7, -7] : List ℤ).length)
    ∧ (greedy tableG 0
        = (collapseRepeats (tableG.map argmaxIdx)).filter (fun x => x ≠ 0)
      ∧ argmaxIdx [-3, -7, -7] < ([-3, -7, -7] : List ℤ).length
      ∧ rowGet [-3, -7, -7] 1 ≤ rowGet [-3, -7, -7] (argmaxIdx [-3, -7, -7])
      ∧ (1 < argmaxIdx [-3, -7, -7] →
          rowGet [-3, -7, -7] 1 < rowGet [-3, -7, -7] (argmaxIdx [-3, -7, -7]))) :=
  ⟨⟨by decide, by decide⟩,
    greedy_decode_spec tableG 0 [-3, -7, -7] 1 (by decide) (by decide)⟩

/-! ## Claim C8 -/

/-- C8 counterexample: on the table tableG every frame has a unique
dominant label (label 1, blank, label 1), yet the greedy output is
[1, 1], which contains immediately-adjacent equal labels. -/
theorem greedy_adjacent_duplicates_cex :
    tableG.all uniqueMaxRow = true
    ∧ greedy tableG 0 = [1, 1]
    ∧ ¬ List.Chain' (· ≠ ·) (greedy tableG 0) := by
  refine ⟨by decide, by decide, ?_⟩
  have h : greedy tableG 0 = [1, 1] := by decide
  rw [h]
  intro hch
  rw [List.chain'_cons] at hch
  exact hch.1 rfl

/-- C8 amended: on a table whose frames each have a unique dominant
label, the greedy output contains no blank; the collapsed argmax
sequence contains no immediately-adjacent equal labels before blank
removal, but removing blanks can make equal labels adjacent. -/
theorem greedy_no_blank_collapse (table : List (List ℤ)) (blank : Nat)
    (hdom : table.all uniqueMaxRow = true) :
    blank ∉ greedy table blank
    ∧ List.Chain' (· ≠ ·) (collapseRepeats (table.map argmaxIdx)) := by
  refine ⟨?_, chain_ne_collapseRepeats _⟩
  intro hmem
  have := List.of_mem_filter hmem
  simp at this

/-- Witness of greedy_no_blank_collapse at the concrete table tableG. -/
theorem greedy_no_blank_collapse_witness :
    tableG.all uniqueMaxRow = true
    ∧ (0 ∉ greedy tableG 0
      ∧ List.Chain' (· ≠ ·) (collapseRepeats (tableG.map argmaxIdx))) :=
  ⟨by decide, greedy_no_blank_collapse tableG 0 (by decide)⟩

/-! ## Lemmas about CTCPrefixScore -/

theorem initStateBlank_sum (P : PCfg) : ∀ t, initStateBlank P t
    = (((List.range (t + 1)).map (fun i => P.log_probs i P.blank)).sum) := by
  intro t
  induction t with
  | zero => simp [initStateBlank, List.range_succ]
  | succ t ih =>
    rw [List.range_succ, List.map_append, List.sum_append]
    simp only [initStateBlank]
    rw [ih]
    simp

/-! ## Claim C6 -/

/-- C6: for a table with xlen at least 1, initial_state assigns to the
blank track at every frame t below xlen the prefix sum of the blank
log-probabilities of frames 0 through t, and keeps the log-zero
sentinel on the non-blank track. -/
theorem ctc_initial_state_sums (P : PCfg) (t : Nat)
    (hx : 1 ≤ P.xlen) (ht : t < P.xlen) :
    (initialState P t).1 = logzero
    ∧ (initialState P t).2
      = (((List.range (t + 1)).map (fun i => P.log_probs i P.blank)).sum) :=
  ⟨rfl, initStateBlank_sum P t⟩

/-- Witness of ctc_initial_state_sums at frame 2 of the concrete
three-frame configuration. -/
theorem ctc_initial_state_sums_witness :
    (1 ≤ pcfgW.xlen ∧ 2 < pcfgW.xlen)
    ∧ ((initialState pcfgW 2).1 = logzero
      ∧ (initialState pcfgW 2).2
        = (((List.range (2 + 1)).map (fun i => pcfgW.log_probs i pcfgW.blank)).sum)) :=
  ⟨⟨by decide, by decide⟩, ctc_initial_state_sums pcfgW 2 (by decide) (by decide)⟩

/-! ## Claim C5 -/

/-- C5: whenever candidate i is the eos label, the returned prefix
log-probability is the log-sum-exp of the final non-blank and blank
forward masses of the unextended prefix state r_prev, independently of
the prefix, of the other candidates and of the extension recursion. -/
theorem ctc_pfx_eos_case (P : PCfg) (hyp cs : List Nat)
    (r_prev : Nat → ℤ × ℤ) (i : Nat) (hyp2 cs2 : List Nat) (i2 : Nat)
    (hx : 1 ≤ P.xlen) (hi : i < cs.length)
    (heos : cs.getD i 0 = P.eos) (heos2 : cs2.getD i2 0 = P.eos) :
    ctcScore P hyp cs r_prev i
      = P.lse (r_prev (P.xlen - 1)).1 (r_prev (P.xlen - 1)).2
    ∧ ctcScore P hyp cs r_prev i = ctcScore P hyp2 cs2 r_prev i2 := by
  constructor
  · rw [ctcScore, if_pos heos]; rfl
  · rw [ctcScore, if_pos heos, ctcScore, if_pos heos2]

/-- Witness of ctc_pfx_eos_case at two different prefixes and candidate
sets, both containing eos. -/
theorem ctc_pfx_eos_case_witness :
    (1 ≤ pcfgW.xlen ∧ 0 < ([2, 0] : List Nat).length
      ∧ ([2, 0] : List Nat).getD 0 0 = pcfgW.eos
      ∧ ([1, 2] : List Nat).getD 1 0 = pcfgW.eos)
    ∧ (ctcScore pcfgW [2, 1] [2, 0] rprevW 0
        = pcfgW.lse (rprevW (pcfgW.xlen - 1)).1 (rprevW (pcfgW.xlen - 1)).2
      ∧ ctcScore pcfgW [2, 1] [2, 0] rprevW 0
        = ctcScore pcfgW [2] [1, 2] rprevW 1) :=
  ⟨⟨by decide, by decide, by decide, by decide⟩,
    ctc_pfx_eos_case pcfgW [2, 1] [2, 0] rprevW 0 [2] [1, 2] 1
      (by decide) (by decide) (by decide) (by decide)⟩

/-! ## Claim C3 -/

/-- C3: for a non-empty prefix, the connecting term of candidate i at
frame t is the blank track of r_prev alone when the candidate equals
the last prefix label, and the log-sum-exp of both r_prev tracks
otherwise; and inside the loop range the non-blank track satisfies
r[t, 0] = lse(r[t-1, 0], log_phi[t-1]) + xs[t]. -/
theorem ctc_pfx_forward_recursion (P : PCfg) (hyp cs : List Nat)
    (r_prev : Nat → ℤ × ℤ) (t i : Nat)
    (hhyp : 2 ≤ hyp.length) (hts : startIdx hyp ≤ t) (htx : t < P.xlen)
    (hi : i < cs.length) :
    logPhi P hyp cs r_prev t i
      = (if cs.getD i 0 = hyp.getLastD 0 then (r_prev t).2
         else P.lse (r_prev t).1 (r_prev t).2)
    ∧ (rVal P hyp cs r_prev t i).1
      = P.lse (rVal P hyp cs r_prev (t - 1) i).1
          (logPhi P hyp cs r_prev (t - 1) i)
        + xsVal P cs t i := by
  have hyl : 0 < ylenOf hyp := by unfold ylenOf; omega
  constructor
  · unfold logPhi
    by_cases hlast : hyp.getLastD 0 ∈ cs
    · rw [if_pos ⟨hyl, hlast⟩]
      by_cases hceq : cs.getD i 0 = hyp.getLastD 0
      · rw [if_neg (by simpa using hceq), if_pos hceq]
      · rw [if_pos hceq, if_neg hceq]; rfl
    · rw [if_neg (fun h => hlast h.2)]
      have hmem : cs.getD i 0 ∈ cs := by
        rw [List.getD_eq_getElem cs 0 hi]
        exact List.getElem_mem hi
      rw [if_neg (fun h : cs.getD i 0 = hyp.getLastD 0 => hlast (h ▸ hmem))]
      rfl
  · have hs1 : 1 ≤ startIdx hyp := le_max_right _ 1
    have h1 : t - (startIdx hyp - 1) = (t - startIdx hyp) + 1 := by omega
    have h4 : t - 1 - (startIdx hyp - 1) = t - startIdx hyp := by omega
    have h2 : startIdx hyp - 1 + (t - startIdx hyp) = t - 1 := by omega
    have h3 : startIdx hyp + (t - startIdx hyp) = t := by omega
    unfold rVal
    rw [h1, h4, rFrom, h2, h3]

/-- Witness of ctc_pfx_forward_recursion at the concrete configuration,
prefix [2, 1], candidates [1, 0], frame 2, candidate 0. -/
theorem ctc_pfx_forward_recursion_witness :
    (2 ≤ ([2, 1] : List Nat).length ∧ startIdx [2, 1] ≤ 2 ∧ 2 < pcfgW.xlen
      ∧ 0 < ([1, 0] : List Nat).length)
    ∧ (logPhi pcfgW [2, 1] [1, 0] rprevW 2 0
        = (if ([1, 0] : List Nat).getD 0 0 = ([2, 1] : List Nat).getLastD 0
           then (rprevW 2).2 else pcfgW.lse (rprevW 2).1 (rprevW 2).2)
      ∧ (rVal pcfgW [2, 1] [1, 0] rprevW 2 0).1
        = pcfgW.lse (rVal pcfgW [2, 1] [1, 0] rprevW (2 - 1) 0).1
            (logPhi pcfgW [2, 1] [1, 0] rprevW (2 - 1) 0)
          + xsVal pcfgW [1, 0] 2 0) :=
  ⟨⟨by decide, by decide, by decide, by decide⟩,
    ctc_pfx_forward_recursion pcfgW [2, 1] [1, 0] rprevW 2 0
      (by decide) (by decide) (by decide) (by decide)⟩

/-! ## Lemmas about beam search -/

theorem notExtended_hyp (C : BSCfg) (w : ℤ) (row : List ℤ) (e : BHyp) :
    (notExtended C w row e).hyp = e.hyp := rfl

theorem extended_hyp (C : BSCfg) (lm : Option ExtScorer) (w : ℤ)
    (u : String) (row : List ℤ) (e : BHyp) (c : Nat) :
    (extended C lm w u row e c).hyp = e.hyp ++ [c] := rfl

theorem notExtended_clm (C : BSCfg) (w : ℤ) (row : List ℤ) (e : BHyp) :
    (notExtended C w row e).clm_score = e.clm_score := rfl

theorem extended_none_clm (C : BSCfg) (w : ℤ) (u : String) (row : List ℤ)
    (e : BHyp) (c : Nat) :
    (extended C none w u row e c).clm_score = e.clm_score := rfl

theorem notExtended_weight_eq (C : BSCfg) (row : List ℤ) (e : BHyp)
    (w w' : ℤ) (hz : e.clm_score = 0) :
    notExtended C w row e = notExtended C w' row e := by
  simp [notExtended, hz]

theorem extended_none_eq (C : BSCfg) (row : List ℤ) (e : BHyp) (c : Nat)
    (w w' : ℤ) (u u' : String) (hz : e.clm_score = 0) :
    extended C none w u row e c = extended C none w' u' row e c := by
  simp [extended, hz]

theorem stepBeam_length_le (C : BSCfg) (lm : Option ExtScorer) (w : ℤ)
    (u : String) (bw : Nat) (row : List ℤ) (beam : List BHyp) :
    (stepBeam C lm w u bw row beam).length ≤ bw :=
  List.length_take_le _ _

theorem beamAt_length_le (C : BSCfg) (lm : Option ExtScorer) (w : ℤ)
    (u : String) (bw : Nat) (rows : List (List ℤ)) (hbw : 1 ≤ bw) :
    (beamAt C lm w u bw rows).length ≤ bw := by
  have h : ∀ (rs : List (List ℤ)) (beam : List BHyp), beam.length ≤ bw →
      (rs.foldl (fun b r => stepBeam C lm w u bw r b) beam).length ≤ bw := by
    intro rs
    induction rs with
    | nil => intro beam hb; simpa using hb
    | cons r rs ih =>
      intro beam hb
      exact ih _ (stepBeam_length_le C lm w u bw r beam)
  exact h rows _ (by simpa [initBeam] using hbw)

theorem candList_none_eq (C : BSCfg) (row : List ℤ) (bw : Nat)
    (w w' : ℤ) (u u' : String) :
    ∀ beam : List BHyp, (∀ e ∈ beam, e.clm_score = 0) →
      candList C none w u bw row beam = candList C none w' u' bw row beam
      ∧ ∀ x ∈ candList C none w u bw row beam, x.clm_score = 0 := by
  intro beam
  induction beam with
  | nil => intro _; exact ⟨rfl, by simp [candList]⟩
  | cons e bs ih =>
    intro hz
    have he : e.clm_score = 0 := hz e (List.mem_cons_self e bs)
    obtain ⟨hbs1, hbs2⟩ := ih (fun x hx => hz x (List.mem_cons_of_mem _ hx))
    have hmap : extended C none w u row e = extended C none w' u' row e :=
      funext (fun c => extended_none_eq C row e c w w' u u' he)
    constructor
    · simp only [candList, List.flatMap_cons] at *
      rw [notExtended_weight_eq C row e w w' he, hmap, hbs1]
    · intro x hx
      simp only [candList, List.flatMap_cons, List.mem_append, List.mem_cons,
        List.mem_map] at hx
      rcases hx with (hx | ⟨c, _, hc⟩) | hx
      · rw [hx]; exact he
      · rw [← hc]; exact he
      · exact hbs2 x hx

theorem stepBeam_none_eq (C : BSCfg) (row : List ℤ) (bw : Nat)
    (w w' : ℤ) (u u' : String) (beam : List BHyp)
    (hz : ∀ e ∈ beam, e.clm_score = 0) :
    stepBeam C none w u bw row beam = stepBeam C none w' u' bw row beam
    ∧ ∀ x ∈ stepBeam C none w u bw row beam, x.clm_score = 0 := by
  obtain ⟨h1, h2⟩ := candList_none_eq C row bw w w' u u' beam hz
  constructor
  · unfold stepBeam
    rw [h1]
  · intro x hx
    have hx2 : x ∈ List.insertionSort scoreGe (candList C none w u bw row beam) :=
      List.mem_of_mem_take hx
    exact h2 x ((List.perm_insertionSort scoreGe _).mem_iff.mp hx2)

theorem beamAt_none_eq (C : BSCfg) (bw : Nat) (w w' : ℤ) (u u' : String)
    (rows : List (List ℤ)) :
    beamAt C none w u bw rows = beamAt C none w' u' bw rows
    ∧ ∀ x ∈ beamAt C none w u bw rows, x.clm_score = 0 := by
  have h : ∀ (rs : List (List ℤ)) (beam : List BHyp),
      (∀ e ∈ beam, e.clm_score = 0) →
      rs.foldl (fun b r => stepBeam C none w u bw r b) beam
        = rs.foldl (fun b r => stepBeam C none w' u' bw r b) beam
      ∧ ∀ x ∈ rs.foldl (fun b r => stepBeam C none w u bw r b) beam,
          x.clm_score = 0 := by
    intro rs
    induction rs with
    | nil => intro beam hb; exact ⟨rfl, hb⟩
    | cons r rs ih =>
      intro beam hb
      obtain ⟨hs1, hs2⟩ := stepBeam_none_eq C r bw w w' u u' beam hb
      obtain ⟨hf1, hf2⟩ := ih (stepBeam C none w u bw r beam) hs2
      refine ⟨?_, hf2⟩
      simp only [List.foldl_cons]
      rw [← hs1]
      exact hf1
  exact h rows (initBeam C) (by intro e he; simp [initBeam] at he; simp [he, LOG_1])

theorem goodHyp_iff (C : BSCfg) (e : BHyp) :
    goodHyp C e = true ↔ (e.hyp.head? = some C.eos ∧ C.blank ∉ e.hyp.tail) := by
  simp [goodHyp]

theorem goodHyp_extended (C : BSCfg) (lm : Option ExtScorer) (w : ℤ)
    (u : String) (row : List ℤ) (e : BHyp) (c : Nat)
    (hg : goodHyp C e = true) (hc : c ≠ C.blank) :
    goodHyp C (extended C lm w u row e c) = true := by
  rw [goodHyp_iff] at hg ⊢
  obtain ⟨h1, h2⟩ := hg
  rw [extended_hyp]
  cases hh : e.hyp with
  | nil => rw [hh] at h1; simp at h1
  | cons a t =>
    rw [hh] at h1 h2
    simp only [List.head?_cons, Option.some.injEq] at h1
    rw [List.cons_append]
    refine ⟨by simp [h1], ?_⟩
    simp only [List.tail_cons] at h2 ⊢
    simp only [List.mem_append, List.mem_singleton]
    rintro (hb | hb)
    · exact h2 hb
    · exact hc hb.symm

theorem candList_good (C : BSCfg) (lm : Option ExtScorer) (w : ℤ)
    (u : String) (bw : Nat) (row : List ℤ) (beam : List BHyp)
    (hg : ∀ e ∈ beam, goodHyp C e = true) :
    ∀ x ∈ candList C lm w u bw row beam, goodHyp C x = true := by
  intro x hx
  simp only [candList, List.mem_flatMap, List.mem_cons, List.mem_map] at hx
  obtain ⟨e, he, hx⟩ := hx
  rcases hx with hx | ⟨c, hcmem, hc⟩
  · rw [hx]
    exact hg e he
  · have hcne : c ≠ C.blank :=
      of_decide_eq_true (List.mem_filter.mp hcmem).2
    rw [← hc]
    exact goodHyp_extended C lm w u row e c (hg e he) hcne

theorem stepBeam_good (C : BSCfg) (lm : Option ExtScorer) (w : ℤ)
    (u : String) (bw : Nat) (row : List ℤ) (beam : List BHyp)
    (hg : ∀ e ∈ beam, goodHyp C e = true) :
    ∀ x ∈ stepBeam C lm w u bw row beam, goodHyp C x = true := by
  intro x hx
  have hx2 : x ∈ List.insertionSort scoreGe (candList C lm w u bw row beam) :=
    List.mem_of_mem_take hx
  exact candList_good C lm w u bw row beam hg x
    ((List.perm_insertionSort scoreGe _).mem_iff.mp hx2)

theorem beamAt_good (C : BSCfg) (lm : Option ExtScorer) (w : ℤ)
    (u : String) (bw : Nat) (rows : List (List ℤ)) :
    ∀ x ∈ beamAt C lm w u bw rows, goodHyp C x = true := by
  have h : ∀ (rs : List (List ℤ)) (beam : List BHyp),
      (∀ e ∈ beam, goodHyp C e = true) →
      ∀ x ∈ rs.foldl (fun b r => stepBeam C lm w u bw r b) beam,
        goodHyp C x = true := by
    intro rs
    induction rs with
    | nil => intro beam hb; exact hb
    | cons r rs ih =>
      intro beam hb
      exact ih _ (stepBeam_good C lm w u bw r beam hb)
  refine h rows (initBeam C) ?_
  intro e he
  simp only [initBeam, List.mem_singleton] at he
  simp [he, goodHyp]

theorem rescored_good (C : BSCfg) (lm : Option ExtScorer) (w : ℤ)
    (u : String) (beam : List BHyp)
    (hg : ∀ e ∈ beam, goodHyp C e = true) :
    ∀ x ∈ rescored C lm w u beam, goodHyp C x = true := by
  cases lm with
  | none => exact hg
  | some l =>
    by_cases hcond : 0 < w ∧ u = "rescoring"
    · intro x hx
      simp only [rescored, if_pos hcond] at hx
      have hx2 := (List.perm_insertionSort scoreGe _).mem_iff.mp hx
      simp only [List.mem_map] at hx2
      obtain ⟨e, he, hc⟩ := hx2
      rw [← hc]
      exact hg e he
    · intro x hx
      simp only [rescored, if_neg hcond] at hx
      exact hg x hx

/-! ## Claim C10 -/

/-- C10, implicit invariant: every hypothesis placed in the beam starts
with the eos marker and carries no blank label after it, because
extensions skip the blank candidate; consequently the returned best
label sequence, with the leading marker stripped, never contains the
blank label. -/
theorem beam_hyps_no_blank (C : BSCfg) (lm : Option ExtScorer)
    (w lp : ℤ) (u : String) (bw : Nat) (rows : List (List ℤ))
    (hbw : 1 ≤ bw) :
    (beamSearch C lm w lp u bw rows).all (goodHyp C) = true
    ∧ (bestHyp C lm w lp u bw rows).contains C.blank = false := by
  have hgood : ∀ x ∈ beamSearch C lm w lp u bw rows, goodHyp C x = true :=
    rescored_good C lm w u _ (beamAt_good C lm w u bw rows)
  constructor
  · rw [List.all_eq_true]
    exact hgood
  · unfold bestHyp
    cases hh : (beamSearch C lm w lp u bw rows).head? with
    | none => rfl
    | some e =>
      have he : e ∈ beamSearch C lm w lp u bw rows :=
        List.mem_of_mem_head? (by simp [hh])
      have hb := ((goodHyp_iff C e).mp (hgood e he)).2
      simpa using hb

/-- Witness of beam_hyps_no_blank on a concrete two-frame decode. -/
theorem beam_hyps_no_blank_witness :
    1 ≤ 2
    ∧ ((beamSearch cfgT none 0 0 "rescoring" 2 rowsT2).all (goodHyp cfgT) = true
      ∧ (bestHyp cfgT none 0 0 "rescoring" 2 rowsT2).contains cfgT.blank = false) :=
  ⟨by decide, beam_hyps_no_blank cfgT none 0 0 "rescoring" 2 rowsT2 (by decide)⟩

/-! ## Claim C1 -/

set_option maxRecDepth 40000 in
/-- C1 counterexample: on two identical frames with blank and label 1
tied, with a beam wide enough to keep all candidates, the beam after
the second time step contains two elements with the identical label
sequence; no merge of duplicate label sequences takes place. -/
theorem beam_search_duplicate_prefixes_cex :
    ¬ List.Nodup ((beamAt cfgT none 0 "rescoring" 12 rowsT2).map BHyp.hyp) := by
  decide

/-- C1 amended: the step of beam_search never merges duplicate label
sequences: the candidate list of a time step is, hypothesis by
hypothesis, the unchanged sequence followed by one extension per
non-blank pruned candidate, every one kept as its own element, so its
label sequences (with multiplicity) and its length are fully determined
with no combination of duplicates. -/
theorem beam_search_keeps_duplicates (C : BSCfg) (lm : Option ExtScorer)
    (w : ℤ) (u : String) (bw : Nat) (row : List ℤ) (beam : List BHyp) :
    (candList C lm w u bw row beam).map BHyp.hyp
      = beam.flatMap (fun e => e.hyp ::
          ((topkIdx row bw).filter (fun c => c ≠ C.blank)).map
            (fun c => e.hyp ++ [c]))
    ∧ (candList C lm w u bw row beam).length
      = beam.length
        * (1 + ((topkIdx row bw).filter (fun c => c ≠ C.blank)).length) := by
  constructor
  · induction beam with
    | nil => rfl
    | cons e bs ih =>
      simp only [candList, List.flatMap_cons, List.map_append, List.map_cons,
        List.map_map] at ih ⊢
      rw [ih]
      rfl
  · induction beam with
    | nil => simp [candList]
    | cons e bs ih =>
      simp only [candList, List.flatMap_cons, List.length_append,
        List.length_cons, List.length_map, List.length_cons] at ih ⊢
      rw [ih]
      ring

/-! ## Claim C2 -/

set_option maxRecDepth 40000 in
/-- C2 counterexample: requesting shallow fusion with no external
scorer configured does not fail: the decode runs to completion and
returns exactly the pure-CTC result (here the label sequence [1]),
silently skipping fusion instead of raising a configuration error. -/
theorem beam_search_lm_none_silent_cex :
    beamSearch cfgT none 1 0 "shallow_fusion" 2 rowsT3
      = beamSearch cfgT none 0 0 "rescoring" 2 rowsT3
    ∧ bestHyp cfgT none 1 0 "shallow_fusion" 2 rowsT3 = [1] := by
  decide

/-- C2 amended: beam_search performs no configuration validation; with
no external scorer the fusion branches are skipped for every fusion
mode and weight, and the decode returns the pure-CTC result: its output
is completely independent of lm_usage, lm_weight and length_penalty
when lm is None. -/
theorem beam_search_lm_none_ignores_fusion (C : BSCfg) (w w' lp lp' : ℤ)
    (u u' : String) (bw : Nat) (rows : List (List ℤ)) :
    beamSearch C none w lp u bw rows = beamSearch C none w' lp' u' bw rows
    ∧ bestHyp C none w lp u bw rows = bestHyp C none w' lp' u' bw rows := by
  obtain ⟨h1, _⟩ := beamAt_none_eq C bw w w' u u' rows
  have e1 : beamSearch C none w lp u bw rows = beamAt C none w u bw rows := rfl
  have e2 : beamSearch C none w' lp' u' bw rows = beamAt C none w' u' bw rows :=
    rfl
  refine ⟨e1.trans (h1.trans e2.symm), ?_⟩
  unfold bestHyp
  rw [e1, e2, h1]

/-! ## Claim C4 -/

set_option maxRecDepth 40000 in
/-- C4 counterexample: on one frame with blank and label 1 tied, the
not-extended hypothesis and the extension by label 1 receive equal
ranking scores, and the pruned beam ranks the shorter sequence first:
equal scores are resolved by generation order, not by preferring the
longer prefix. -/
theorem beam_pruning_tiebreak_cex :
    (beamAt cfgT none 0 "rescoring" 2 rowsT1).map BHyp.score = [-1, -1]
    ∧ (beamAt cfgT none 0 "rescoring" 2 rowsT1).map BHyp.hyp = [[2], [2, 1]] := by
  decide

/-- C4 amended: at the end of every time step the beam is the first
beam_width elements of the stable descending sort of the candidate
list, so the beam size never exceeds beam_width, the retained elements
are a sorted selection of a permutation of the candidates (hence the
top scores), and equal scores keep generation order rather than being
re-ordered by prefix length or label sequence. -/
theorem beam_pruning_stable_sort (C : BSCfg) (lm : Option ExtScorer)
    (w : ℤ) (u : String) (bw : Nat) (rows : List (List ℤ))
    (row : List ℤ) (beam : List BHyp) (hbw : 1 ≤ bw) :
    (beamAt C lm w u bw rows).length ≤ bw
    ∧ stepBeam C lm w u bw row beam
      = (List.insertionSort scoreGe (candList C lm w u bw row beam)).take bw
    ∧ (List.insertionSort scoreGe (candList C lm w u bw row beam)).Perm
        (candList C lm w u bw row beam)
    ∧ List.Sorted scoreGe
        (List.insertionSort scoreGe (candList C lm w u bw row beam)) :=
  ⟨beamAt_length_le C lm w u bw rows hbw, rfl,
    List.perm_insertionSort scoreGe _, List.sorted_insertionSort scoreGe _⟩

/-- Witness of beam_pruning_stable_sort on the concrete one-frame
decode. -/
theorem beam_pruning_stable_sort_witness :
    1 ≤ 2
    ∧ ((beamAt cfgT none 0 "rescoring" 2 rowsT1).length ≤ 2
      ∧ stepBeam cfgT none 0 "rescoring" 2 [-1, -1, -9] (initBeam cfgT)
        = (List.insertionSort scoreGe
            (candList cfgT none 0 "rescoring" 2 [-1, -1, -9]
              (initBeam cfgT))).take 2
      ∧ (List.insertionSort scoreGe
          (candList cfgT none 0 "rescoring" 2 [-1, -1, -9]
            (initBeam cfgT))).Perm
          (candList cfgT none 0 "rescoring" 2 [-1, -1, -9] (initBeam cfgT))
      ∧ List.Sorted scoreGe
          (List.insertionSort scoreGe
            (candList cfgT none 0 "rescoring" 2 [-1, -1, -9]
              (initBeam cfgT)))) :=
  ⟨by decide,
    beam_pruning_stable_sort cfgT none 0 "rescoring" 2 rowsT1 [-1, -1, -9]
      (initBeam cfgT) (by decide)⟩

/-! ## Claim C9 -/

/-- C9: the length_penalty argument of beam_search is accepted but
never read: any two decodes differing only in length_penalty return the
identical beam, identical ranking scores, and the identical best label
sequence; the claimed additive per-extension contribution does not
exist. -/
theorem length_penalty_never_read (C : BSCfg) (lm : Option ExtScorer)
    (w : ℤ) (u : String) (bw : Nat) (rows : List (List ℤ)) (lp lp' : ℤ) :
    beamSearch C lm w lp u bw rows = beamSearch C lm w lp' u bw rows
    ∧ bestHyp C lm w lp u bw rows = bestHyp C lm w lp' u bw rows :=
  ⟨rfl, rfl⟩

end NeuralSpCTC
